import Mathlib

/-!
Shallow embedding of `merkle_tree.py`: a Merkle tree built bottom-up over an
ordered list of data chunks, audit-trail derivation by walking parent links,
and independent proof verification by refolding the trail.

Modelling conventions:
* Python heap objects are modelled by an arena (`Arena`, a list of `Node`
  records); a `Nat` index into the arena models a Python object reference,
  so index equality models Python object identity (`==` on objects without
  a custom `__eq__`).
* The hash primitive `sha256(...).hexdigest()` is out of scope per the code's
  role (opaque collision-resistant digest); it is a parameter
  `H : String → String` of every definition.  `compute_hash` mirrors the
  source wrapper.
* Python exceptions / nontermination are modelled by `Option`: the
  recursion of `build_parents` (which does not structurally terminate on the
  empty level) and the parent-link walk of `generate_audit_trail` take a
  fuel argument; `none` means the Python run does not return normally.
* The mutable default argument `trail=[]` of `generate_audit_trail` is a
  buffer shared across calls; it is modelled by threading the buffer
  explicitly (`trail` parameter, and `get_audit_trail_call` for the state of
  the shared buffer across successive calls).  The first call of a Python
  process runs with buffer `[]`.
-/

/-- Source `class Branch(enum.Enum)` with members `left` and `right`. -/
inductive Branch where
  | left
  | right
deriving DecidableEq, Repr

/-- Source `class Node`: hash value, optional payload, parent back-reference and the
two child references.  References are arena indices (`Option Nat`). -/
structure Node where
  hash_value : String
  data_value : Option String
  parent : Option Nat
  left_child : Option Nat
  right_child : Option Nat
deriving DecidableEq, Repr

/-- Source `Node.is_leaf`. -/
def Node.is_leaf (n : Node) : Bool :=
  n.left_child == none && n.right_child == none

/-- The heap of allocated nodes; a `Nat` index models an object reference. -/
abbrev Arena := List Node

/-- Default node for out-of-range reads (never reached in well-formed runs;
a Python out-of-range object access would raise instead). -/
def emptyNode : Node :=
  { hash_value := "", data_value := none, parent := none,
    left_child := none, right_child := none }

/-- Dereference an arena index. -/
def getNode (a : Arena) (i : Nat) : Node := a.getD i emptyNode

/-- Assignment `child.parent = parent_index`: overwrite one node's parent field. -/
def set_parent (a : Arena) (i : Nat) (p : Nat) : Arena :=
  a.set i { getNode a i with parent := some p }

/-- One element of an audit trail: `(sibling_hash, branch_side)`; the
terminal sentinel carries side `none` (Python `None`). -/
abbrev TrailEntry := String × Option Branch

/-- Source `compute_hash(data)`, with the opaque digest `H` standing for
`sha256(data.encode('utf-8')).hexdigest()`. -/
def compute_hash (H : String → String) (data : String) : String := H data

/-- The body of one iteration of the pairing loop of
`MerkleTree.build_parents`: create
`parent = Node(compute_hash(left.hash_value + right.hash_value))`,
link `parent.left_child, parent.right_child = left, right` and
`left.parent, right.parent = parent, parent`.  Returns the grown arena and
the index of the new parent node. -/
def add_parent (H : String → String) (a : Arena) (left_child right_child : Nat) :
    Arena × Nat :=
  let parent : Node :=
    { hash_value :=
        compute_hash H ((getNode a left_child).hash_value ++ (getNode a right_child).hash_value),
      data_value := none, parent := none,
      left_child := some left_child, right_child := some right_child }
  let p := a.length
  let a1 := a ++ [parent]
  let a2 := set_parent a1 left_child p
  let a3 := set_parent a2 right_child p
  (a3, p)

/-- The `while i < num_leaves` loop of `MerkleTree.build_parents`: scan the
level two indices at a time, pairing `(level[i], level[i+1])`, or
`(level[i], level[i])` when `i + 1` is out of range (odd count: the last
node is duplicated against itself).  Returns the grown arena and the list
`parents`. -/
def build_parents_loop (H : String → String) (a : Arena) : List Nat → Arena × List Nat
  | [] => (a, [])
  | [l] =>
    let r := add_parent H a l l
    (r.1, [r.2])
  | l :: r :: rest =>
    let s := add_parent H a l r
    let t := build_parents_loop H s.1 rest
    (t.1, s.2 :: t.2)

/-- Source `MerkleTree.build_parents(leaves)`: if the level has exactly one node it
is the root, otherwise run the pairing loop and recurse on `parents`.  The
Python recursion has no base case for the empty level (it recurses forever
there), so the model takes fuel; `none` models a run that does not return. -/
def build_parents_fuel (H : String → String) : Nat → Arena → List Nat → Option (Arena × Nat)
  | 0, _, _ => none
  | fuel + 1, a, level =>
    if level.length == 1 then
      some (a, level.headD 0)
    else
      let r := build_parents_loop H a level
      build_parents_fuel H fuel r.1 r.2

/-- Source `MerkleTree.build_leaves(data_chunks)`: one leaf node
`Node(compute_hash(chunk), chunk)` per chunk, in input order.  Returns the
grown arena and the list of leaf indices. -/
def build_leaves (H : String → String) (a : Arena) : List String → Arena × List Nat
  | [] => (a, [])
  | chunk :: rest =>
    let node : Node :=
      { hash_value := compute_hash H chunk, data_value := some chunk,
        parent := none, left_child := none, right_child := none }
    let r := build_leaves H (a ++ [node]) rest
    (r.1, a.length :: r.2)

/-- Source `class MerkleTree`: the root node reference and the ordered leaf
references, together with the arena holding the node objects. -/
structure MerkleTree where
  arena : Arena
  root_node : Nat
  leaves : List Nat
deriving DecidableEq, Repr

/-- Source `MerkleTree.build_tree(data_chunks)`.  Fuel `length + 1` is enough for
every non-empty chunk list (proved below); for the empty list the Python
recursion never returns, and the model yields `none` at every fuel. -/
def build_tree (H : String → String) (data_chunks : List String) : Option MerkleTree :=
  let l := build_leaves H [] data_chunks
  match build_parents_fuel H (l.2.length + 1) l.1 l.2 with
  | some r => some { arena := r.1, root_node := r.2, leaves := l.2 }
  | none => none

/-- Source `MerkleTree.generate_audit_trail(node, trail)`: if `node` is the root,
append the terminal `(root.hash_value, None)` and return; otherwise append
the sibling entry — `(parent.right_child.hash_value, Branch.right)` when the
node is its parent's left child, else `(parent.left_child.hash_value,
Branch.left)` — and recurse on the parent.  The walk follows heap parent
links, so the model takes fuel; `none` models a Python run that does not
return normally (missing parent/child: `AttributeError`). -/
def generate_audit_trail (a : Arena) (root_node : Nat) :
    Nat → Nat → List TrailEntry → Option (List TrailEntry)
  | 0, _, _ => none
  | fuel + 1, node, trail =>
    if root_node == node then
      some (trail ++ [((getNode a root_node).hash_value, none)])
    else
      match (getNode a node).parent with
      | none => none
      | some p =>
        if (getNode a p).left_child == some node then
          match (getNode a p).right_child with
          | some rc =>
            generate_audit_trail a root_node fuel p
              (trail ++ [((getNode a rc).hash_value, some Branch.right)])
          | none => none
        else
          match (getNode a p).left_child with
          | some lc =>
            generate_audit_trail a root_node fuel p
              (trail ++ [((getNode a lc).hash_value, some Branch.left)])
          | none => none

/-- The `for leaf in self.leaves` scan of `MerkleTree.get_audit_trail`:
return the trail of the first leaf whose `hash_value` equals the target,
`none` (Python `None`) when no leaf matches.  `trail` is the current state
of the shared default buffer (see `get_audit_trail_call`); fuel
`arena.length` is enough for every tree built by `build_tree`, since parent
indices strictly increase along any parent chain it creates. -/
def get_audit_trail_from (t : MerkleTree) :
    List Nat → String → List TrailEntry → Option (List TrailEntry)
  | [], _, _ => none
  | leaf :: rest, target_leaf_hash, trail =>
    if (getNode t.arena leaf).hash_value == target_leaf_hash then
      generate_audit_trail t.arena t.root_node t.arena.length leaf trail
    else
      get_audit_trail_from t rest target_leaf_hash trail

/-- Source `MerkleTree.get_audit_trail(target_leaf_hash)` with the shared default
buffer in state `trail`.  A fresh Python process starts with `trail = []`. -/
def get_audit_trail (t : MerkleTree) (target_leaf_hash : String)
    (trail : List TrailEntry) : Option (List TrailEntry) :=
  get_audit_trail_from t t.leaves target_leaf_hash trail

/-- One observable call of `get_audit_trail` against the shared mutable
default buffer of `generate_audit_trail` (`trail=[]` evaluated once at
definition time in Python): returns the call's result together with the
buffer state after the call (`generate_audit_trail` appends to — and
returns — the shared list object, so a successful call leaves the buffer
equal to the returned trail). -/
def get_audit_trail_call (t : MerkleTree) (target_leaf_hash : String)
    (buffer : List TrailEntry) : Option (List TrailEntry) × List TrailEntry :=
  match get_audit_trail t target_leaf_hash buffer with
  | some trail => (some trail, trail)
  | none => (none, buffer)

/-- Source `merkle_proof(root_hash, leaf_hash, trail)`: fold over `trail[:-1]`,
combining `current_hash = compute_hash(item[0] + current_hash)` when
`item[1] == Branch.left` and `compute_hash(current_hash + item[0])`
otherwise, then compare with `root_hash`. -/
def merkle_proof (H : String → String) (root_hash leaf_hash : String)
    (trail : List TrailEntry) : Bool :=
  (trail.dropLast.foldl
    (fun current_hash item =>
      if item.2 == some Branch.left then
        compute_hash H (item.1 ++ current_hash)
      else
        compute_hash H (current_hash ++ item.1))
    leaf_hash) == root_hash

/-- Proof-side name for the combination step of `merkle_proof`. -/
def proofStep (H : String → String) (current_hash : String) (item : TrailEntry) : String :=
  if item.2 == some Branch.left then
    compute_hash H (item.1 ++ current_hash)
  else
    compute_hash H (current_hash ++ item.1)

/-- The verifier's combination step as the spec words it (§4.4): defined only
by the `LEFT` and `RIGHT` cases; a terminal marker in a non-terminal
position is left untouched (the spec gives it no combination rule). -/
def verifySpecStep (H : String → String) (current : String) (item : TrailEntry) : String :=
  match item.2 with
  | some Branch.left => H (item.1 ++ current)
  | some Branch.right => H (current ++ item.1)
  | none => current

/-- A level list is well-formed: distinct node references, all allocated. -/
def ValidLevel (a : Arena) (level : List Nat) : Prop :=
  level.Nodup ∧ ∀ i ∈ level, i < a.length

/-- Two node records that agree on everything except possibly the parent
back-reference (construction mutates only `parent` after creation). -/
def coreEq (x y : Node) : Prop :=
  x.hash_value = y.hash_value ∧ x.data_value = y.data_value ∧
  x.left_child = y.left_child ∧ x.right_child = y.right_child

/-- The right element of pair `k` of the pairing loop: `level[2k+1]` when it
exists, else the duplicated `level[2k]`. -/
def pairRight (level : List Nat) (k : Nat) : Nat :=
  if 2 * k + 1 < level.length then level.getD (2 * k + 1) 0 else level.getD (2 * k) 0

/-- Concrete injective stand-in for the opaque digest, used to evaluate the
model on concrete inputs. -/
def testHash (s : String) : String := "(" ++ s ++ ")"

/-- The tree built from the spec's concrete scenario `["a", "b", "c"]` with
the concrete digest `testHash`. -/
def exampleTree : MerkleTree :=
  (build_tree testHash ["a", "b", "c"]).getD { arena := [], root_node := 0, leaves := [] }

/-- The leaf level of the `["a", "b", "c"]` example before parent
construction (as produced by `build_leaves testHash [] ["a", "b", "c"]`). -/
def exampleLeafArena : Arena :=
  [⟨"(a)", some "a", none, none, none⟩,
   ⟨"(b)", some "b", none, none, none⟩,
   ⟨"(c)", some "c", none, none, none⟩]

/-- The audit trail of leaf `"a"` of `exampleTree` (first invocation). -/
def trailA : List TrailEntry :=
  [("(b)", some Branch.right), ("((c)(c))", some Branch.right),
   ("(((a)(b))((c)(c)))", none)]

theorem testHash_injective : Function.Injective testHash := by
  intro s t h
  have hd : ("(" ++ s ++ ")").data = ("(" ++ t ++ ")").data := congrArg String.data h
  simp only [String.data_append] at hd
  have h2 := List.append_cancel_right hd
  have h3 := List.append_cancel_left h2
  cases s
  cases t
  exact congrArg String.mk h3

theorem exampleTree_eq : build_tree testHash ["a", "b", "c"] = some exampleTree := by
  decide

theorem get_audit_trail_from_cons_neg (t : MerkleTree) (leaf : Nat) (rest : List Nat)
    (target : String) (trail : List TrailEntry)
    (h : ((getNode t.arena leaf).hash_value == target) = false) :
    get_audit_trail_from t (leaf :: rest) target trail =
      get_audit_trail_from t rest target trail := by
  simp [get_audit_trail_from, h]

theorem get_audit_trail_from_cons_pos (t : MerkleTree) (leaf : Nat) (rest : List Nat)
    (target : String) (trail : List TrailEntry)
    (h : ((getNode t.arena leaf).hash_value == target) = true) :
    get_audit_trail_from t (leaf :: rest) target trail =
      generate_audit_trail t.arena t.root_node t.arena.length leaf trail := by
  simp [get_audit_trail_from, h]

/-- C2: the trail buffer is the mutable default argument `trail=[]` of
`generate_audit_trail`, created once and shared across calls: on the tree
built from `["a", "b", "c"]`, the first query for `hash("a")` returns the
three-element trail, but an immediately repeated identical query returns the
six-element concatenation of two copies — elements accumulated from the
first call, with two terminal sentinels — instead of a fresh trail. -/
theorem audit_trail_second_call_accumulates :
    (get_audit_trail_call exampleTree (testHash "a") []).1 = some trailA ∧
    (get_audit_trail_call exampleTree (testHash "a")
        (get_audit_trail_call exampleTree (testHash "a") []).2).1 =
      some (trailA ++ trailA) ∧
    trailA ++ trailA ≠ trailA ∧
    (trailA ++ trailA).countP (fun e => e.2.isNone) = 2 ∧
    trailA.countP (fun e => e.2.isNone) = 1 := by
  decide

/-- C4 (divergence at the failing input): called on an empty chunk sequence,
`build_tree` never returns a tree: `build_parents` recurses on the empty
level at every recursion depth (a Python run raises `RecursionError`), and
no `EmptyInputError` is raised — the code defines no such error. -/
theorem build_tree_empty_diverges (H : String → String) :
    build_tree H [] = none ∧ ∀ fuel a, build_parents_fuel H fuel a [] = none := by
  constructor
  · rfl
  · intro fuel
    induction fuel with
    | zero => intro a; rfl
    | succ n ih =>
      intro a
      simp only [build_parents_fuel, build_parents_loop, List.length_nil]
      exact ih a

/-- C5 (counterexample): `merkle_proof` performs no shape validation: it
computes a boolean from malformed trails instead of failing.  Given a trail
with no terminal sentinel it silently discards the last real element (here
it returns `true`), and a non-terminal element with unrecognized side marker
`None` is treated as `RIGHT` (here the fold runs and returns `true`). -/
theorem merkle_proof_no_validation :
    merkle_proof testHash "r" "r" [("x", some Branch.left)] = true ∧
    merkle_proof testHash (testHash ("r" ++ "x")) "r" [("x", none), ("s", none)] = true := by
  decide

/-- C5 (amended): `merkle_proof` never raises and validates nothing — there
is no `MalformedTrailError` in the code.  It drops the last trail element
unconditionally, whatever it is (a one-element trail reduces to a direct
leaf/root comparison); and any side marker other than `Branch.left` —
including a terminal `None` sitting in a non-terminal position — goes
through the `else` branch and is combined exactly like `Branch.right`. -/
theorem merkle_proof_never_fails (H : String → String) (root_hash leaf_hash x : String)
    (rest : List TrailEntry) (e : TrailEntry) :
    merkle_proof H root_hash leaf_hash ((x, none) :: rest) =
      merkle_proof H root_hash leaf_hash ((x, some Branch.right) :: rest) ∧
    merkle_proof H root_hash leaf_hash [e] = (leaf_hash == root_hash) := by
  constructor
  · cases rest with
    | nil => rfl
    | cons y ys => rfl
  · rfl

/-- Lemma: `merkle_proof` written with the named step function. -/
theorem merkle_proof_eq_foldl (H : String → String) (root_hash leaf_hash : String)
    (trail : List TrailEntry) :
    merkle_proof H root_hash leaf_hash trail =
      (trail.dropLast.foldl (proofStep H) leaf_hash == root_hash) := rfl

theorem foldl_proofStep_eq_verifySpecStep (H : String → String) :
    ∀ (l : List TrailEntry) (cur : String), (∀ e ∈ l, e.2 ≠ none) →
      l.foldl (proofStep H) cur = l.foldl (verifySpecStep H) cur := by
  intro l
  induction l with
  | nil => intro cur _; rfl
  | cons e es ih =>
    intro cur hshape
    have he : e.2 ≠ none := hshape e (List.mem_cons_self e es)
    have hstep : proofStep H cur e = verifySpecStep H cur e := by
      match h2 : e.2 with
      | none => exact absurd h2 he
      | some Branch.left => simp [proofStep, verifySpecStep, h2, compute_hash]
      | some Branch.right => simp [proofStep, verifySpecStep, h2, compute_hash]
    simp only [List.foldl_cons, hstep]
    exact ih _ (fun x hx => hshape x (List.mem_cons_of_mem e hx))

/-- C8: on any trail whose non-terminal elements carry a real side marker,
`merkle_proof` returns `true` exactly when folding the spec's combination
rule (`LEFT`: sibling on the left of the concatenation; `RIGHT`: sibling on
the right) over the trail minus its terminal element, starting from the
candidate leaf hash, reproduces the trusted root hash.  The function is a
pure fold over its three arguments; it takes no tree. -/
theorem merkle_proof_is_trail_fold (H : String → String) (root_hash leaf_hash : String)
    (trail : List TrailEntry) (hshape : ∀ e ∈ trail.dropLast, e.2 ≠ none) :
    merkle_proof H root_hash leaf_hash trail = true ↔
      trail.dropLast.foldl (verifySpecStep H) leaf_hash = root_hash := by
  rw [merkle_proof_eq_foldl, foldl_proofStep_eq_verifySpecStep H _ _ hshape]
  exact beq_iff_eq

/-- C8 witness: the fold characterization at a concrete two-element trail. -/
theorem merkle_proof_is_trail_fold_witness :
    (∀ e ∈ ([("s", some Branch.left), ("r", none)] : List TrailEntry).dropLast, e.2 ≠ none) ∧
    (merkle_proof testHash "(s(l))" "l" [("s", some Branch.left), ("r", none)] = true ↔
      ([("s", some Branch.left), ("r", none)] : List TrailEntry).dropLast.foldl
        (verifySpecStep testHash) "l" = "(s(l))") :=
  ⟨by decide, merkle_proof_is_trail_fold testHash "(s(l))" "l"
    [("s", some Branch.left), ("r", none)] (by decide)⟩

/-- C3 (counterexample): on `C = ["a", "b", "c"]` (digest instantiated with
the concrete injective `testHash`), the audit trail returned for `hash("c")`
is NOT `[(h(c), LEFT), (p1, LEFT), (root, NONE)]`: the duplicated node is
its parent's left child (`left_child == node` holds), so the code records
side `RIGHT` for the first element, not `LEFT`. -/
theorem audit_trail_abc_left_refuted :
    get_audit_trail exampleTree (testHash "c") [] ≠
      some [(testHash "c", some Branch.left),
            (testHash (testHash "a" ++ testHash "b"), some Branch.left),
            (testHash (testHash (testHash "a" ++ testHash "b") ++
              testHash (testHash "c" ++ testHash "c")), none)] := by
  decide

/-- C3 (amended): for `C = ["a", "b", "c"]` and any injective digest, the
audit trail for `hash("c")` is exactly
`[(h(c), RIGHT), (p1, LEFT), (root, NONE)]` with `p1 = H(h(a) + h(b))` and
`root = H(p1 + H(h(c) + h(c)))` — side `RIGHT` in the first element, since
the duplicated leaf is stored as its parent's left child. -/
theorem audit_trail_abc (H : String → String) (hinj : Function.Injective H) :
    ∃ t, build_tree H ["a", "b", "c"] = some t ∧
      get_audit_trail t (H "c") [] =
        some [(H "c", some Branch.right),
              (H (H "a" ++ H "b"), some Branch.left),
              (H (H (H "a" ++ H "b") ++ H (H "c" ++ H "c")), none)] := by
  have hac : ((H "a" : String) == H "c") = false := by
    rw [beq_eq_false_iff_ne]
    exact fun h => (by decide : ("a" : String) ≠ "c") (hinj h)
  have hbc : ((H "b" : String) == H "c") = false := by
    rw [beq_eq_false_iff_ne]
    exact fun h => (by decide : ("b" : String) ≠ "c") (hinj h)
  refine ⟨⟨[⟨H "a", some "a", some 3, none, none⟩,
    ⟨H "b", some "b", some 3, none, none⟩,
    ⟨H "c", some "c", some 4, none, none⟩,
    ⟨H (H "a" ++ H "b"), none, some 5, some 0, some 1⟩,
    ⟨H (H "c" ++ H "c"), none, some 5, some 2, some 2⟩,
    ⟨H (H (H "a" ++ H "b") ++ H (H "c" ++ H "c")), none, none, some 3, some 4⟩],
    5, [0, 1, 2]⟩, rfl, ?_⟩
  show get_audit_trail_from ⟨[⟨H "a", some "a", some 3, none, none⟩,
    ⟨H "b", some "b", some 3, none, none⟩,
    ⟨H "c", some "c", some 4, none, none⟩,
    ⟨H (H "a" ++ H "b"), none, some 5, some 0, some 1⟩,
    ⟨H (H "c" ++ H "c"), none, some 5, some 2, some 2⟩,
    ⟨H (H (H "a" ++ H "b") ++ H (H "c" ++ H "c")), none, none, some 3, some 4⟩],
    5, [0, 1, 2]⟩ [0, 1, 2] (H "c") [] = _
  rw [get_audit_trail_from_cons_neg _ 0 [1, 2] _ _ hac]
  rw [get_audit_trail_from_cons_neg _ 1 [2] _ _ hbc]
  rw [get_audit_trail_from_cons_pos _ 2 [] _ _ (beq_self_eq_true (H "c"))]
  rfl

/-- C3 witness: the amended trail shape evaluated at the concrete digest. -/
theorem audit_trail_abc_witness :
    ∃ t, build_tree testHash ["a", "b", "c"] = some t ∧
      get_audit_trail t (testHash "c") [] =
        some [(testHash "c", some Branch.right),
              (testHash (testHash "a" ++ testHash "b"), some Branch.left),
              (testHash (testHash (testHash "a" ++ testHash "b") ++
                testHash (testHash "c" ++ testHash "c")), none)] :=
  audit_trail_abc testHash testHash_injective

/-- C9: a single-chunk tree's root is the leaf itself (`root.hash ==
hash(C[0])`), its audit trail is exactly the lone sentinel
`[(root.hash, NONE)]`, and `merkle_proof` accepts it with zero combination
steps (the fold runs over `trail[:-1] = []`). -/
theorem singleton_tree (H : String → String) (chunk : String) :
    ∃ t, build_tree H [chunk] = some t ∧
      (getNode t.arena t.root_node).hash_value = H chunk ∧
      get_audit_trail t (H chunk) [] = some [(H chunk, none)] ∧
      merkle_proof H ((getNode t.arena t.root_node).hash_value) (H chunk)
        [(H chunk, none)] = true ∧
      ([(H chunk, none)] : List TrailEntry).dropLast = [] := by
  refine ⟨⟨[⟨H chunk, some chunk, none, none, none⟩], 0, [0]⟩, rfl, rfl, ?_, ?_, rfl⟩
  · show get_audit_trail_from ⟨[⟨H chunk, some chunk, none, none, none⟩], 0, [0]⟩
      [0] (H chunk) [] = _
    rw [get_audit_trail_from_cons_pos _ 0 [] _ _ (beq_self_eq_true (H chunk))]
    rfl
  · show merkle_proof H (H chunk) (H chunk) [(H chunk, none)] = true
    simp [merkle_proof]

theorem getNode_append_lt (a : Arena) (x : Node) (i : Nat) (h : i < a.length) :
    getNode (a ++ [x]) i = getNode a i := by
  simp [getNode, List.getD_eq_getElem?_getD, List.getElem?_append, h]

theorem getNode_append_self (a : Arena) (x : Node) :
    getNode (a ++ [x]) a.length = x := by
  simp [getNode, List.getD_eq_getElem?_getD, List.getElem?_append_right (le_refl a.length)]

theorem length_set_parent (a : Arena) (i p : Nat) :
    (set_parent a i p).length = a.length := by
  simp [set_parent]

theorem getNode_set_parent_ne (a : Arena) (i p j : Nat) (h : i ≠ j) :
    getNode (set_parent a i p) j = getNode a j := by
  simp [set_parent, getNode, List.getD_eq_getElem?_getD, List.getElem?_set_ne h]

theorem getNode_set_parent_self (a : Arena) (i p : Nat) (h : i < a.length) :
    getNode (set_parent a i p) i = { getNode a i with parent := some p } := by
  simp [set_parent, getNode, List.getD_eq_getElem?_getD, List.getElem?_set_self h]

theorem add_parent_length (H : String → String) (a : Arena) (l r : Nat) :
    (add_parent H a l r).1.length = a.length + 1 := by
  simp [add_parent, set_parent]

theorem add_parent_snd (H : String → String) (a : Arena) (l r : Nat) :
    (add_parent H a l r).2 = a.length := rfl

theorem getNode_add_parent_new (H : String → String) (a : Arena) (l r : Nat)
    (hl : l < a.length) (hr : r < a.length) :
    getNode (add_parent H a l r).1 a.length =
      ⟨compute_hash H ((getNode a l).hash_value ++ (getNode a r).hash_value),
        none, none, some l, some r⟩ := by
  show getNode (set_parent (set_parent _ l a.length) r a.length) a.length = _
  rw [getNode_set_parent_ne _ _ _ _ (Nat.ne_of_lt hr),
    getNode_set_parent_ne _ _ _ _ (Nat.ne_of_lt hl), getNode_append_self]

theorem getNode_add_parent_other (H : String → String) (a : Arena) (l r i : Nat)
    (hi : i < a.length) (hil : i ≠ l) (hir : i ≠ r) :
    getNode (add_parent H a l r).1 i = getNode a i := by
  show getNode (set_parent (set_parent _ l a.length) r a.length) i = _
  rw [getNode_set_parent_ne _ _ _ _ (fun h => hir h.symm),
    getNode_set_parent_ne _ _ _ _ (fun h => hil h.symm), getNode_append_lt _ _ _ hi]

theorem getNode_add_parent_left (H : String → String) (a : Arena) (l r : Nat)
    (hl : l < a.length) :
    getNode (add_parent H a l r).1 l = { getNode a l with parent := some a.length } := by
  have hl1 : l < (a ++ [(⟨compute_hash H ((getNode a l).hash_value ++ (getNode a r).hash_value),
      none, none, some l, some r⟩ : Node)]).length := by
    simp
    omega
  by_cases hlr : l = r
  · subst hlr
    show getNode (set_parent (set_parent _ l a.length) l a.length) l = _
    rw [getNode_set_parent_self _ _ _ (by rw [length_set_parent]; exact hl1)]
    rw [getNode_set_parent_self _ _ _ hl1]
    rw [getNode_append_lt _ _ _ hl]
  · show getNode (set_parent (set_parent _ l a.length) r a.length) l = _
    rw [getNode_set_parent_ne _ _ _ _ (fun h => hlr h.symm)]
    rw [getNode_set_parent_self _ _ _ hl1]
    rw [getNode_append_lt _ _ _ hl]

theorem getNode_add_parent_right (H : String → String) (a : Arena) (l r : Nat)
    (hr : r < a.length) :
    getNode (add_parent H a l r).1 r = { getNode a r with parent := some a.length } := by
  have hr1 : r < (a ++ [(⟨compute_hash H ((getNode a l).hash_value ++ (getNode a r).hash_value),
      none, none, some l, some r⟩ : Node)]).length := by
    simp
    omega
  by_cases hlr : l = r
  · subst hlr
    show getNode (set_parent (set_parent _ l a.length) l a.length) l = _
    rw [getNode_set_parent_self _ _ _ (by rw [length_set_parent]; exact hr1)]
    rw [getNode_set_parent_self _ _ _ hr1]
    rw [getNode_append_lt _ _ _ hr]
  · show getNode (set_parent (set_parent _ l a.length) r a.length) r = _
    rw [getNode_set_parent_self _ _ _ (by rw [length_set_parent]; exact hr1)]
    rw [getNode_set_parent_ne _ _ _ _ hlr]
    rw [getNode_append_lt _ _ _ hr]

theorem coreEq_refl (x : Node) : coreEq x x := ⟨rfl, rfl, rfl, rfl⟩

theorem coreEq_trans {x y z : Node} (h1 : coreEq x y) (h2 : coreEq y z) : coreEq x z :=
  ⟨h1.1.trans h2.1, h1.2.1.trans h2.2.1, h1.2.2.1.trans h2.2.2.1, h1.2.2.2.trans h2.2.2.2⟩

theorem coreEq_of_eq {x y : Node} (h : x = y) : coreEq x y := h ▸ coreEq_refl x

theorem coreEq_add_parent (H : String → String) (a : Arena) (l r i : Nat)
    (hi : i < a.length) :
    coreEq (getNode (add_parent H a l r).1 i) (getNode a i) := by
  by_cases hir : i = r
  · subst hir
    rw [getNode_add_parent_right H a l i hi]
    exact ⟨rfl, rfl, rfl, rfl⟩
  · by_cases hil : i = l
    · subst hil
      rw [getNode_add_parent_left H a i r hi]
      exact ⟨rfl, rfl, rfl, rfl⟩
    · rw [getNode_add_parent_other H a l r i hi hil hir]
      exact coreEq_refl _

theorem getD_mem_of_lt (l : List Nat) (j : Nat) (h : j < l.length) : l.getD j 0 ∈ l := by
  rw [List.getD_eq_getElem l 0 h]
  exact List.getElem_mem h

theorem getD_nodup_ne (l : List Nat) (hnd : l.Nodup) (j1 j2 : Nat)
    (h1 : j1 < l.length) (h2 : j2 < l.length) (hne : j1 ≠ j2) :
    l.getD j1 0 ≠ l.getD j2 0 := by
  rw [List.getD_eq_getElem l 0 h1, List.getD_eq_getElem l 0 h2]
  exact fun h => hne (hnd.getElem_inj_iff.mp h)

theorem pairRight_mem (level : List Nat) (k : Nat) (h : 2 * k < level.length) :
    pairRight level k ∈ level := by
  unfold pairRight
  split
  · exact getD_mem_of_lt level (2 * k + 1) (by omega)
  · exact getD_mem_of_lt level (2 * k) h

theorem pairRight_cons_cons (l r : Nat) (rest : List Nat) (k : Nat) :
    pairRight (l :: r :: rest) (k + 1) = pairRight rest k := by
  unfold pairRight
  simp only [List.length_cons]
  have harith : 2 * (k + 1) + 1 < rest.length + 1 + 1 ↔ 2 * k + 1 < rest.length := by omega
  by_cases h : 2 * k + 1 < rest.length
  · rw [if_pos (harith.mpr h), if_pos h]
    show (l :: r :: rest).getD (2 * k + 1 + 2) 0 = _
    rw [List.getD_cons_succ, List.getD_cons_succ]
  · rw [if_neg (fun hh => h (harith.mp hh)), if_neg h]
    show (l :: r :: rest).getD (2 * k + 2) 0 = _
    rw [List.getD_cons_succ, List.getD_cons_succ]

theorem build_parents_loop_spec (H : String → String) :
    ∀ (N : Nat) (a : Arena) (level : List Nat), level.length ≤ N →
    (∀ i ∈ level, i < a.length) → level.Nodup →
    ((build_parents_loop H a level).2 = List.range' a.length ((level.length + 1) / 2)) ∧
    ((build_parents_loop H a level).1.length = a.length + (level.length + 1) / 2) ∧
    (∀ i, i < a.length → i ∉ level →
      getNode (build_parents_loop H a level).1 i = getNode a i) ∧
    (∀ i, i < a.length → coreEq (getNode (build_parents_loop H a level).1 i) (getNode a i)) ∧
    (∀ j, j < level.length →
      (getNode (build_parents_loop H a level).1 (level.getD j 0)).parent =
        some (a.length + j / 2)) ∧
    (∀ k, k < (level.length + 1) / 2 →
      getNode (build_parents_loop H a level).1 (a.length + k) =
        ⟨compute_hash H ((getNode a (level.getD (2 * k) 0)).hash_value ++
            (getNode a (pairRight level k)).hash_value),
          none, none, some (level.getD (2 * k) 0), some (pairRight level k)⟩) := by
  intro N
  induction N with
  | zero =>
    intro a level hlen _ _
    have hnil : level = [] := List.eq_nil_of_length_eq_zero (Nat.le_zero.mp hlen)
    subst hnil
    refine ⟨rfl, by simp [build_parents_loop], ?_, ?_, ?_, ?_⟩
    · intro i _ _; rfl
    · intro i _; exact coreEq_refl _
    · intro j hj; simp at hj
    · intro k hk; simp at hk
  | succ N ih =>
    intro a level hlen hvalid hnodup
    match level with
    | [] =>
      refine ⟨rfl, by simp [build_parents_loop], ?_, ?_, ?_, ?_⟩
      · intro i _ _; rfl
      · intro i _; exact coreEq_refl _
      · intro j hj; simp at hj
      · intro k hk; simp at hk
    | [l] =>
      have hl : l < a.length := hvalid l (by simp)
      have hloop : build_parents_loop H a [l] = ((add_parent H a l l).1, [a.length]) := rfl
      refine ⟨?_, ?_, ?_, ?_, ?_, ?_⟩
      · rw [hloop]
        norm_num [List.range'_one]
      · rw [hloop]
        show (add_parent H a l l).1.length = a.length + ([l].length + 1) / 2
        rw [add_parent_length]
        norm_num
      · intro i hi hmem
        have hil : i ≠ l := by simp at hmem; exact hmem
        rw [hloop]
        exact getNode_add_parent_other H a l l i hi hil hil
      · intro i hi
        rw [hloop]
        exact coreEq_add_parent H a l l i hi
      · intro j hj
        have hj0 : j = 0 := by simp at hj; omega
        subst hj0
        rw [hloop]
        show (getNode (add_parent H a l l).1 l).parent = some (a.length + 0)
        rw [getNode_add_parent_left H a l l hl]
        rfl
      · intro k hk
        have hk0 : k = 0 := by simp at hk; omega
        subst hk0
        rw [hloop]
        show getNode (add_parent H a l l).1 (a.length + 0) = _
        have h20 : ([l] : List Nat).getD (2 * 0) 0 = l := rfl
        have hpr : pairRight [l] 0 = l := rfl
        rw [h20, hpr]
        show getNode (add_parent H a l l).1 a.length = _
        exact getNode_add_parent_new H a l l hl hl
    | l :: r :: rest =>
      have hl : l < a.length := hvalid l (by simp)
      have hr : r < a.length := hvalid r (by simp)
      have hlr : l ≠ r := by
        have := (List.nodup_cons.mp hnodup).1
        simp at this
        exact fun h => this.1 h
      have hlrest : l ∉ rest := by
        have := (List.nodup_cons.mp hnodup).1
        simp at this
        exact this.2
      have hrrest : r ∉ rest := ((List.nodup_cons.mp (List.Nodup.of_cons hnodup)).1)
      have hnr : rest.Nodup := List.Nodup.of_cons (List.Nodup.of_cons hnodup)
      have ha' : (add_parent H a l r).1.length = a.length + 1 := add_parent_length H a l r
      have hvr : ∀ i ∈ rest, i < (add_parent H a l r).1.length := by
        intro i hi
        rw [ha']
        exact Nat.lt_succ_of_lt (hvalid i (by simp [hi]))
      have hrestlen : rest.length ≤ N := by simp at hlen; omega
      obtain ⟨c1, c2, c3, c4, c5, c6⟩ := ih (add_parent H a l r).1 rest hrestlen hvr hnr
      have hloop : build_parents_loop H a (l :: r :: rest) =
          ((build_parents_loop H (add_parent H a l r).1 rest).1,
            a.length :: (build_parents_loop H (add_parent H a l r).1 rest).2) := rfl
      have hm : ((l :: r :: rest).length + 1) / 2 = (rest.length + 1) / 2 + 1 := by
        simp
        omega
      refine ⟨?_, ?_, ?_, ?_, ?_, ?_⟩
      · rw [hloop]
        show a.length :: (build_parents_loop H (add_parent H a l r).1 rest).2 = _
        rw [c1, hm, List.range'_succ]
        rw [ha']
      · rw [hloop]
        show (build_parents_loop H (add_parent H a l r).1 rest).1.length = _
        rw [c2, ha', hm]
        omega
      · intro i hi hmem
        have h1 : i ≠ l := by simp at hmem; exact hmem.1
        have h2 : i ≠ r := by simp at hmem; exact hmem.2.1
        have h3 : i ∉ rest := by simp at hmem; exact hmem.2.2
        rw [hloop]
        show getNode (build_parents_loop H (add_parent H a l r).1 rest).1 i = getNode a i
        rw [c3 i (by omega) h3]
        exact getNode_add_parent_other H a l r i hi h1 h2
      · intro i hi
        rw [hloop]
        exact coreEq_trans (c4 i (by omega)) (coreEq_add_parent H a l r i hi)
      · intro j hj
        rw [hloop]
        match j with
        | 0 =>
          show (getNode (build_parents_loop H (add_parent H a l r).1 rest).1 l).parent =
            some (a.length + 0 / 2)
          rw [c3 l (by omega) hlrest, getNode_add_parent_left H a l r hl]
          rfl
        | 1 =>
          show (getNode (build_parents_loop H (add_parent H a l r).1 rest).1 r).parent =
            some (a.length + 1 / 2)
          rw [c3 r (by omega) hrrest, getNode_add_parent_right H a l r hr]
          rfl
        | (j' + 2) =>
          have hj' : j' < rest.length := by simp at hj; omega
          show (getNode (build_parents_loop H (add_parent H a l r).1 rest).1
            (rest.getD j' 0)).parent = some (a.length + (j' + 2) / 2)
          rw [c5 j' hj', ha']
          congr 1
          omega
      · intro k hk
        rw [hloop]
        match k with
        | 0 =>
          have hmem : a.length ∉ rest := fun h => absurd (hvalid a.length (by simp [h])) (by omega)
          show getNode (build_parents_loop H (add_parent H a l r).1 rest).1 (a.length + 0) = _
          have e1 : ((l :: r :: rest) : List Nat).getD (2 * 0) 0 = l := rfl
          have e2 : pairRight (l :: r :: rest) 0 = r := by
            unfold pairRight
            rw [if_pos (by simp)]
            rfl
          rw [e1, e2]
          rw [Nat.add_zero, c3 a.length (by omega) hmem]
          exact getNode_add_parent_new H a l r hl hr
        | (k' + 1) =>
          have hk' : k' < (rest.length + 1) / 2 := by rw [hm] at hk; omega
          have h2k : 2 * k' < rest.length := by omega
          have e0 : a.length + (k' + 1) = (add_parent H a l r).1.length + k' := by
            rw [ha']; omega
          rw [e0, c6 k' hk']
          have e1 : ((l :: r :: rest) : List Nat).getD (2 * (k' + 1)) 0 = rest.getD (2 * k') 0 := by
            show (l :: r :: rest).getD (2 * k' + 2) 0 = _
            rw [List.getD_cons_succ, List.getD_cons_succ]
          have e2 := pairRight_cons_cons l r rest k'
          rw [e1, e2]
          have h2ka : rest.getD (2 * k') 0 < a.length :=
            hvalid _ (List.mem_cons_of_mem l (List.mem_cons_of_mem r
              (getD_mem_of_lt rest (2 * k') h2k)))
          have hpra : pairRight rest k' < a.length :=
            hvalid _ (List.mem_cons_of_mem l (List.mem_cons_of_mem r
              (pairRight_mem rest k' h2k)))
          have hhash1 : (getNode (add_parent H a l r).1 (rest.getD (2 * k') 0)).hash_value =
              (getNode a (rest.getD (2 * k') 0)).hash_value :=
            (coreEq_add_parent H a l r _ h2ka).1
          have hhash2 : (getNode (add_parent H a l r).1 (pairRight rest k')).hash_value =
              (getNode a (pairRight rest k')).hash_value :=
            (coreEq_add_parent H a l r _ hpra).1
          rw [hhash1, hhash2]

theorem build_parents_loop_length (H : String → String) :
    ∀ (N : Nat) (level : List Nat) (a : Arena), level.length ≤ N →
      (build_parents_loop H a level).2.length = (level.length + 1) / 2 := by
  intro N
  induction N with
  | zero =>
    intro level a hlen
    have hnil : level = [] := List.eq_nil_of_length_eq_zero (Nat.le_zero.mp hlen)
    subst hnil
    norm_num [build_parents_loop]
  | succ N ih =>
    intro level a hlen
    match level with
    | [] => norm_num [build_parents_loop]
    | [l] => norm_num [build_parents_loop]
    | l :: r :: rest =>
      have hrec := ih rest (add_parent H a l r).1 (by simp at hlen; omega)
      show (a.length :: (build_parents_loop H (add_parent H a l r).1 rest).2).length = _
      rw [List.length_cons, hrec]
      simp
      omega

theorem build_parents_fuel_total (H : String → String) :
    ∀ (fuel : Nat) (a : Arena) (level : List Nat), level ≠ [] → level.length ≤ fuel →
      ∃ r, build_parents_fuel H fuel a level = some r := by
  intro fuel
  induction fuel with
  | zero =>
    intro a level hne hlen
    exact absurd (List.eq_nil_of_length_eq_zero (Nat.le_zero.mp hlen)) hne
  | succ fuel ih =>
    intro a level hne hlen
    by_cases h1 : level.length = 1
    · have hcond : (level.length == 1) = true := beq_iff_eq.mpr h1
      refine ⟨(a, level.headD 0), ?_⟩
      simp [build_parents_fuel, hcond]
    · have hcond : (level.length == 1) = false := beq_eq_false_iff_ne.mpr h1
      have hpos : 0 < level.length := List.length_pos.mpr hne
      have hlen2 : 2 ≤ level.length := by omega
      have hplen : (build_parents_loop H a level).2.length = (level.length + 1) / 2 :=
        build_parents_loop_length H level.length level a (le_refl _)
      have hpne : (build_parents_loop H a level).2 ≠ [] := by
        intro h
        rw [h] at hplen
        simp at hplen
        omega
      have hple : (build_parents_loop H a level).2.length ≤ fuel := by
        rw [hplen]
        omega
      obtain ⟨r, hr⟩ := ih (build_parents_loop H a level).1 (build_parents_loop H a level).2
        hpne hple
      refine ⟨r, ?_⟩
      simp only [build_parents_fuel, hcond, Bool.false_eq_true, if_false]
      exact hr

theorem build_parents_fuel_frame (H : String → String) :
    ∀ (fuel : Nat) (a : Arena) (level : List Nat) (a2 : Arena) (root : Nat),
      (∀ i ∈ level, i < a.length) → level.Nodup →
      build_parents_fuel H fuel a level = some (a2, root) →
      a.length ≤ a2.length ∧
      (root ∈ level ∨ a.length ≤ root) ∧
      (∀ i, i < a.length → i ∉ level → getNode a2 i = getNode a i) ∧
      (∀ i, i < a.length → coreEq (getNode a2 i) (getNode a i)) := by
  intro fuel
  induction fuel with
  | zero =>
    intro a level a2 root _ _ h
    exact absurd h (by simp [build_parents_fuel])
  | succ fuel ih =>
    intro a level a2 root hvalid hnodup hbp
    by_cases h1 : level.length = 1
    · have hcond : (level.length == 1) = true := beq_iff_eq.mpr h1
      simp only [build_parents_fuel, hcond, if_true] at hbp
      have ha2 : a2 = a := by cases hbp; rfl
      have hroot : root = level.headD 0 := by cases hbp; rfl
      obtain ⟨x, hx⟩ := List.length_eq_one.mp h1
      subst hx ha2 hroot
      refine ⟨le_refl _, Or.inl (by simp), ?_, ?_⟩
      · intro i _ _; rfl
      · intro i _; exact coreEq_refl _
    · have hcond : (level.length == 1) = false := beq_eq_false_iff_ne.mpr h1
      simp only [build_parents_fuel, hcond, Bool.false_eq_true, if_false] at hbp
      obtain ⟨c1, c2, c3, c4, c5, c6⟩ :=
        build_parents_loop_spec H level.length a level (le_refl _) hvalid hnodup
      have hvp : ∀ i ∈ (build_parents_loop H a level).2,
          i < (build_parents_loop H a level).1.length := by
        intro i hi
        rw [c1, List.mem_range'] at hi
        obtain ⟨w, hw, hieq⟩ := hi
        rw [c2]
        omega
      have hnp : (build_parents_loop H a level).2.Nodup := by
        rw [c1]
        exact List.nodup_range' _ _ 1 (by norm_num)
      obtain ⟨f1, f2, f3, f4⟩ :=
        ih (build_parents_loop H a level).1 (build_parents_loop H a level).2 a2 root hvp hnp hbp
      have halen : a.length ≤ (build_parents_loop H a level).1.length := by rw [c2]; omega
      refine ⟨le_trans halen f1, ?_, ?_, ?_⟩
      · right
        rcases f2 with h | h
        · rw [c1, List.mem_range'] at h
          obtain ⟨w, hw, hieq⟩ := h
          omega
        · omega
      · intro i hi hmem
        have hips : i ∉ (build_parents_loop H a level).2 := by
          rw [c1]
          intro hin
          rw [List.mem_range'] at hin
          obtain ⟨w, hw, hieq⟩ := hin
          omega
        rw [f3 i (by omega) hips]
        exact c3 i hi hmem
      · intro i hi
        exact coreEq_trans (f4 i (by omega)) (c4 i hi)

theorem generate_audit_trail_root (a : Arena) (root fuel n : Nat) (trail : List TrailEntry)
    (heq : (root == n) = true) :
    generate_audit_trail a root (fuel + 1) n trail =
      some (trail ++ [((getNode a root).hash_value, none)]) := by
  simp only [generate_audit_trail, heq, if_true]

theorem generate_audit_trail_step_right (a : Arena) (root fuel n p rc : Nat)
    (trail : List TrailEntry)
    (hne : (root == n) = false)
    (hpar : (getNode a n).parent = some p)
    (hleft : ((getNode a p).left_child == some n) = true)
    (hright : (getNode a p).right_child = some rc) :
    generate_audit_trail a root (fuel + 1) n trail =
      generate_audit_trail a root fuel p
        (trail ++ [((getNode a rc).hash_value, some Branch.right)]) := by
  simp only [generate_audit_trail, hne, Bool.false_eq_true, if_false, hpar, hleft, if_true, hright]

theorem generate_audit_trail_step_left (a : Arena) (root fuel n p lc : Nat)
    (trail : List TrailEntry)
    (hne : (root == n) = false)
    (hpar : (getNode a n).parent = some p)
    (hleft0 : ((getNode a p).left_child == some n) = false)
    (hleft : (getNode a p).left_child = some lc) :
    generate_audit_trail a root (fuel + 1) n trail =
      generate_audit_trail a root fuel p
        (trail ++ [((getNode a lc).hash_value, some Branch.left)]) := by
  have hcond : ((some lc : Option Nat) == some n) = false := hleft ▸ hleft0
  simp only [generate_audit_trail, hne, Bool.false_eq_true, if_false, hpar, hleft, hcond]

theorem proofStep_right (H : String → String) (cur s : String) :
    proofStep H cur (s, some Branch.right) = compute_hash H (cur ++ s) := rfl

theorem proofStep_left (H : String → String) (cur s : String) :
    proofStep H cur (s, some Branch.left) = compute_hash H (s ++ cur) := rfl

theorem build_parents_fuel_trail (H : String → String) :
    ∀ (fuel : Nat) (a : Arena) (level : List Nat) (a2 : Arena) (root : Nat),
      (∀ i ∈ level, i < a.length) → level.Nodup →
      build_parents_fuel H fuel a level = some (a2, root) →
      ∀ n ∈ level, ∀ trail0 : List TrailEntry, ∃ core : List TrailEntry,
        (∀ fuel2, a2.length - a.length + 1 ≤ fuel2 →
          generate_audit_trail a2 root fuel2 n trail0 =
            some (trail0 ++ (core ++ [((getNode a2 root).hash_value, none)]))) ∧
        List.foldl (proofStep H) ((getNode a2 n).hash_value) core =
          (getNode a2 root).hash_value := by
  intro fuel
  induction fuel with
  | zero =>
    intro a level a2 root _ _ h
    exact absurd h (by simp [build_parents_fuel])
  | succ fuel ih =>
    intro a level a2 root hvalid hnodup hbp n hn trail0
    by_cases h1 : level.length = 1
    · have hcond : (level.length == 1) = true := beq_iff_eq.mpr h1
      simp only [build_parents_fuel, hcond, if_true] at hbp
      have ha2 : a2 = a := by cases hbp; rfl
      have hroot : root = level.headD 0 := by cases hbp; rfl
      obtain ⟨x, hx⟩ := List.length_eq_one.mp h1
      subst hx
      have hnx : n = x := by simpa using hn
      have hrx : root = x := hroot
      refine ⟨[], ?_, ?_⟩
      · intro fuel2 hf2
        obtain ⟨f2, rfl⟩ : ∃ f2, fuel2 = f2 + 1 := ⟨fuel2 - 1, by omega⟩
        rw [generate_audit_trail_root a2 root f2 n trail0
          (beq_iff_eq.mpr (hrx.trans hnx.symm))]
        simp
      · subst ha2 hnx hrx
        rfl
    · have hcond : (level.length == 1) = false := beq_eq_false_iff_ne.mpr h1
      simp only [build_parents_fuel, hcond, Bool.false_eq_true, if_false] at hbp
      obtain ⟨c1, c2, c3, c4, c5, c6⟩ :=
        build_parents_loop_spec H level.length a level (le_refl _) hvalid hnodup
      have hvp : ∀ i ∈ (build_parents_loop H a level).2,
          i < (build_parents_loop H a level).1.length := by
        intro i hi
        rw [c1, List.mem_range'] at hi
        obtain ⟨w, hw, hieq⟩ := hi
        rw [c2]
        omega
      have hnp : (build_parents_loop H a level).2.Nodup := by
        rw [c1]
        exact List.nodup_range' _ _ 1 (by norm_num)
      obtain ⟨f1, f2, f3, f4⟩ :=
        build_parents_fuel_frame H fuel (build_parents_loop H a level).1
          (build_parents_loop H a level).2 a2 root hvp hnp hbp
      obtain ⟨j, hj, hjn⟩ : ∃ j, j < level.length ∧ level.getD j 0 = n := by
        rw [List.mem_iff_getElem] at hn
        obtain ⟨j, hj, hje⟩ := hn
        exact ⟨j, hj, by rw [List.getD_eq_getElem level 0 hj]; exact hje⟩
      have hlen2 : 2 ≤ level.length := by omega
      have hkm : j / 2 < (level.length + 1) / 2 := by omega
      have hpmem : a.length + j / 2 ∈ (build_parents_loop H a level).2 := by
        rw [c1, List.mem_range']
        exact ⟨j / 2, hkm, by omega⟩
      have hna : n < a.length := hvalid n hn
      have hnL1 : n < (build_parents_loop H a level).1.length := by rw [c2]; omega
      have hnps : n ∉ (build_parents_loop H a level).2 := by
        rw [c1]
        intro hin
        rw [List.mem_range'] at hin
        obtain ⟨w, hw, hieq⟩ := hin
        omega
      have ha2n : getNode a2 n = getNode (build_parents_loop H a level).1 n := f3 n hnL1 hnps
      have hparent : (getNode a2 n).parent = some (a.length + j / 2) := by
        rw [ha2n, ← hjn]
        exact c5 j hj
      have hroot_ge : a.length ≤ root := by
        rcases f2 with h | h
        · rw [c1, List.mem_range'] at h
          obtain ⟨w, hw, hieq⟩ := h
          omega
        · rw [c2] at h
          omega
      have hrne : (root == n) = false := beq_eq_false_iff_ne.mpr (by omega)
      have hpL1 : getNode (build_parents_loop H a level).1 (a.length + j / 2) =
          ⟨compute_hash H ((getNode a (level.getD (2 * (j / 2)) 0)).hash_value ++
              (getNode a (pairRight level (j / 2))).hash_value),
            none, none, some (level.getD (2 * (j / 2)) 0),
            some (pairRight level (j / 2))⟩ := c6 (j / 2) hkm
      have hcore_p : coreEq (getNode a2 (a.length + j / 2))
          (getNode (build_parents_loop H a level).1 (a.length + j / 2)) :=
        f4 _ (hvp _ hpmem)
      have hleft2 : (getNode a2 (a.length + j / 2)).left_child =
          some (level.getD (2 * (j / 2)) 0) := by
        rw [hcore_p.2.2.1, hpL1]
      have hright2 : (getNode a2 (a.length + j / 2)).right_child =
          some (pairRight level (j / 2)) := by
        rw [hcore_p.2.2.2, hpL1]
      have hhash_p : (getNode a2 (a.length + j / 2)).hash_value =
          compute_hash H ((getNode a (level.getD (2 * (j / 2)) 0)).hash_value ++
            (getNode a (pairRight level (j / 2))).hash_value) := by
        rw [hcore_p.1, hpL1]
      have hash_pres : ∀ x ∈ level, (getNode a2 x).hash_value = (getNode a x).hash_value := by
        intro x hx
        have hxa : x < a.length := hvalid x hx
        have hxL1 : x < (build_parents_loop H a level).1.length := by rw [c2]; omega
        have hxps : x ∉ (build_parents_loop H a level).2 := by
          rw [c1]
          intro hin
          rw [List.mem_range'] at hin
          obtain ⟨w, hw, hieq⟩ := hin
          omega
        rw [f3 x hxL1 hxps]
        exact (c4 x hxa).1
      have hfuel_sub : (build_parents_loop H a level).1.length = a.length +
          (level.length + 1) / 2 := c2
      by_cases hpar : j % 2 = 0
      · -- n is the left child of its parent
        have h2k : 2 * (j / 2) = j := by omega
        have hlvl2k : level.getD (2 * (j / 2)) 0 = n := by rw [h2k, hjn]
        have hbeqL : ((getNode a2 (a.length + j / 2)).left_child == some n) = true := by
          rw [hleft2, hlvl2k]
          exact beq_self_eq_true _
        have hrc_mem : pairRight level (j / 2) ∈ level :=
          pairRight_mem level (j / 2) (by omega)
        obtain ⟨core', hgen', hfold'⟩ :=
          ih (build_parents_loop H a level).1 (build_parents_loop H a level).2 a2 root
            hvp hnp hbp (a.length + j / 2) hpmem
            (trail0 ++ [((getNode a2 (pairRight level (j / 2))).hash_value, some Branch.right)])
        refine ⟨((getNode a2 (pairRight level (j / 2))).hash_value, some Branch.right) :: core',
          ?_, ?_⟩
        · intro fuel2 hf2
          obtain ⟨f2', rfl⟩ : ∃ f2', fuel2 = f2' + 1 := ⟨fuel2 - 1, by omega⟩
          rw [generate_audit_trail_step_right a2 root f2' n (a.length + j / 2)
            (pairRight level (j / 2)) trail0 hrne hparent hbeqL hright2]
          rw [hgen' f2' (by omega)]
          simp
        · rw [List.foldl_cons, proofStep_right]
          have hstep : compute_hash H ((getNode a2 n).hash_value ++
              (getNode a2 (pairRight level (j / 2))).hash_value) =
              (getNode a2 (a.length + j / 2)).hash_value := by
            rw [hhash_p, hash_pres n hn, hash_pres _ hrc_mem, hlvl2k]
          rw [hstep]
          exact hfold'
      · -- n is the right child of its parent
        have h2k1 : 2 * (j / 2) + 1 = j := by omega
        have hlvld : level.getD (2 * (j / 2) + 1) 0 = n := by rw [h2k1, hjn]
        have hne2k : level.getD (2 * (j / 2)) 0 ≠ n := by
          rw [← hjn]
          exact getD_nodup_ne level hnodup (2 * (j / 2)) j (by omega) hj (by omega)
        have hbeqL : ((getNode a2 (a.length + j / 2)).left_child == some n) = false := by
          rw [hleft2]
          exact beq_eq_false_iff_ne.mpr (fun h => hne2k (Option.some.inj h))
        have hlc_mem : level.getD (2 * (j / 2)) 0 ∈ level :=
          getD_mem_of_lt level (2 * (j / 2)) (by omega)
        have hpr_n : pairRight level (j / 2) = n := by
          unfold pairRight
          rw [if_pos (by omega)]
          exact hlvld
        obtain ⟨core', hgen', hfold'⟩ :=
          ih (build_parents_loop H a level).1 (build_parents_loop H a level).2 a2 root
            hvp hnp hbp (a.length + j / 2) hpmem
            (trail0 ++ [((getNode a2 (level.getD (2 * (j / 2)) 0)).hash_value, some Branch.left)])
        refine ⟨((getNode a2 (level.getD (2 * (j / 2)) 0)).hash_value, some Branch.left) :: core',
          ?_, ?_⟩
        · intro fuel2 hf2
          obtain ⟨f2', rfl⟩ : ∃ f2', fuel2 = f2' + 1 := ⟨fuel2 - 1, by omega⟩
          rw [generate_audit_trail_step_left a2 root f2' n (a.length + j / 2)
            (level.getD (2 * (j / 2)) 0) trail0 hrne hparent hbeqL hleft2]
          rw [hgen' f2' (by omega)]
          simp
        · rw [List.foldl_cons, proofStep_left]
          have hstep : compute_hash H ((getNode a2 (level.getD (2 * (j / 2)) 0)).hash_value ++
              (getNode a2 n).hash_value) =
              (getNode a2 (a.length + j / 2)).hash_value := by
            rw [hhash_p, hash_pres n hn, hash_pres _ hlc_mem, hpr_n]
          rw [hstep]
          exact hfold'

theorem build_leaves_spec (H : String → String) :
    ∀ (chunks : List String) (a : Arena),
      (build_leaves H a chunks).1 =
        a ++ chunks.map (fun c => (⟨compute_hash H c, some c, none, none, none⟩ : Node)) ∧
      (build_leaves H a chunks).2 = List.range' a.length chunks.length := by
  intro chunks
  induction chunks with
  | nil =>
    intro a
    exact ⟨by simp [build_leaves], rfl⟩
  | cons c rest ih =>
    intro a
    constructor
    · show (build_leaves H (a ++ [⟨compute_hash H c, some c, none, none, none⟩]) rest).1 = _
      rw [(ih (a ++ [(⟨compute_hash H c, some c, none, none, none⟩ : Node)])).1]
      simp
    · show a.length :: (build_leaves H (a ++ [⟨compute_hash H c, some c, none, none, none⟩])
        rest).2 = _
      rw [(ih (a ++ [(⟨compute_hash H c, some c, none, none, none⟩ : Node)])).2]
      simp [List.range'_succ]

theorem getNode_map_leaf (H : String → String) (chunks : List String) (j : Nat)
    (hj : j < chunks.length) :
    getNode (chunks.map (fun c => (⟨compute_hash H c, some c, none, none, none⟩ : Node))) j =
      ⟨compute_hash H (chunks.get ⟨j, hj⟩), some (chunks.get ⟨j, hj⟩), none, none, none⟩ := by
  unfold getNode
  rw [List.getD_eq_getElem _ _ (by simp [hj])]
  simp

theorem get_audit_trail_from_found (t : MerkleTree) :
    ∀ (ls : List Nat) (target : String) (buffer : List TrailEntry),
      (∃ i ∈ ls, (getNode t.arena i).hash_value = target) →
      ∃ i ∈ ls, (getNode t.arena i).hash_value = target ∧
        get_audit_trail_from t ls target buffer =
          generate_audit_trail t.arena t.root_node t.arena.length i buffer := by
  intro ls
  induction ls with
  | nil =>
    intro target buffer h
    obtain ⟨i, hi, _⟩ := h
    simp at hi
  | cons leaf rest ih =>
    intro target buffer h
    by_cases hh : (getNode t.arena leaf).hash_value = target
    · exact ⟨leaf, List.mem_cons_self leaf rest, hh,
        get_audit_trail_from_cons_pos t leaf rest target buffer (beq_iff_eq.mpr hh)⟩
    · obtain ⟨i, hi, hih⟩ := h
      have hirest : i ∈ rest := by
        rcases List.mem_cons.mp hi with he | he
        · exact absurd (he ▸ hih) hh
        · exact he
      obtain ⟨i2, hi2, hi2h, hi2e⟩ := ih target buffer ⟨i, hirest, hih⟩
      refine ⟨i2, List.mem_cons_of_mem leaf hi2, hi2h, ?_⟩
      rw [get_audit_trail_from_cons_neg t leaf rest target buffer
        (beq_eq_false_iff_ne.mpr hh)]
      exact hi2e

theorem merkle_main (H : String → String) (chunks : List String) (c : String)
    (hne : chunks ≠ []) (hc : c ∈ chunks) :
    ∃ t core, build_tree H chunks = some t ∧
      get_audit_trail t (H c) [] =
        some (core ++ [((getNode t.arena t.root_node).hash_value, none)]) ∧
      List.foldl (proofStep H) (H c) core = (getNode t.arena t.root_node).hash_value := by
  obtain ⟨hbl1, hbl2⟩ := build_leaves_spec H chunks []
  have ha0len : (build_leaves H [] chunks).1.length = chunks.length := by rw [hbl1]; simp
  have hn1 : 1 ≤ chunks.length := List.length_pos.mpr hne
  have hlvs : (build_leaves H [] chunks).2 = List.range' 0 chunks.length := by rw [hbl2]; rfl
  have hlvs_len : (build_leaves H [] chunks).2.length = chunks.length := by rw [hlvs]; simp
  have hlvs_ne : (build_leaves H [] chunks).2 ≠ [] := by
    intro h
    rw [h] at hlvs_len
    simp at hlvs_len
    omega
  obtain ⟨r, hr⟩ := build_parents_fuel_total H ((build_leaves H [] chunks).2.length + 1)
    (build_leaves H [] chunks).1 (build_leaves H [] chunks).2 hlvs_ne (by omega)
  obtain ⟨a2, root⟩ := r
  have hbt : build_tree H chunks = some ⟨a2, root, (build_leaves H [] chunks).2⟩ := by
    show (match build_parents_fuel H ((build_leaves H [] chunks).2.length + 1)
        (build_leaves H [] chunks).1 (build_leaves H [] chunks).2 with
      | some r => some (⟨r.1, r.2, (build_leaves H [] chunks).2⟩ : MerkleTree)
      | none => none) = _
    rw [hr]
  have hvalid : ∀ i ∈ (build_leaves H [] chunks).2, i < (build_leaves H [] chunks).1.length := by
    rw [hlvs, ha0len]
    intro i hi
    rw [List.mem_range'] at hi
    obtain ⟨w, hw, hie⟩ := hi
    omega
  have hnodup : (build_leaves H [] chunks).2.Nodup := by
    rw [hlvs]
    exact List.nodup_range' _ _ 1 (by norm_num)
  have htrail := build_parents_fuel_trail H _ _ _ _ _ hvalid hnodup hr
  have hframe := build_parents_fuel_frame H _ _ _ _ _ hvalid hnodup hr
  obtain ⟨jc, hjc, hjce⟩ := List.mem_iff_getElem.mp hc
  have hjmem : jc ∈ (build_leaves H [] chunks).2 := by
    rw [hlvs, List.mem_range']
    exact ⟨jc, hjc, by omega⟩
  have hjhash : (getNode a2 jc).hash_value = H c := by
    have h1 : coreEq (getNode a2 jc) (getNode (build_leaves H [] chunks).1 jc) :=
      hframe.2.2.2 jc (by omega)
    rw [h1.1, hbl1, List.nil_append, getNode_map_leaf H chunks jc hjc]
    show compute_hash H (chunks.get ⟨jc, hjc⟩) = H c
    have : chunks.get ⟨jc, hjc⟩ = c := hjce
    rw [this]
    rfl
  obtain ⟨i, himem, hihash, hscan⟩ := get_audit_trail_from_found
    ⟨a2, root, (build_leaves H [] chunks).2⟩ (build_leaves H [] chunks).2 (H c) []
    ⟨jc, hjmem, hjhash⟩
  obtain ⟨core, hgen, hfold⟩ := htrail i himem []
  refine ⟨⟨a2, root, (build_leaves H [] chunks).2⟩, core, hbt, ?_, ?_⟩
  · show get_audit_trail_from ⟨a2, root, (build_leaves H [] chunks).2⟩
      (build_leaves H [] chunks).2 (H c) [] = _
    rw [hscan]
    exact hgen a2.length (by have := hframe.1; omega)
  · rw [← hihash]
    exact hfold

/-- C1: round-trip.  For every non-empty chunk sequence and every chunk `c`
in it, building the tree, deriving the audit trail for `hash(c)` with
`get_audit_trail` (first invocation, fresh buffer), and running
`merkle_proof` with the tree's root hash, `hash(c)` and that trail returns
`true`. -/
theorem round_trip (H : String → String) (chunks : List String) (c : String)
    (hne : chunks ≠ []) (hc : c ∈ chunks) :
    ∃ t trail, build_tree H chunks = some t ∧
      get_audit_trail t (H c) [] = some trail ∧
      merkle_proof H ((getNode t.arena t.root_node).hash_value) (H c) trail = true := by
  obtain ⟨t, core, hbt, hget, hfold⟩ := merkle_main H chunks c hne hc
  refine ⟨t, _, hbt, hget, ?_⟩
  rw [merkle_proof_eq_foldl, List.dropLast_concat, hfold]
  exact beq_self_eq_true _

/-- C1 witness: the round-trip evaluated on `["a", "b", "c"]` and chunk
`"c"` with the concrete digest. -/
theorem round_trip_witness :
    ∃ t trail, build_tree testHash ["a", "b", "c"] = some t ∧
      get_audit_trail t (testHash "c") [] = some trail ∧
      merkle_proof testHash ((getNode t.arena t.root_node).hash_value) (testHash "c")
        trail = true :=
  round_trip testHash ["a", "b", "c"] "c" (by decide) (by decide)

theorem string_append_left_cancel (a b c : String) (h : a ++ b = a ++ c) : b = c := by
  have hd := congrArg String.data h
  simp only [String.data_append] at hd
  have h2 := List.append_cancel_left hd
  cases b
  cases c
  exact congrArg String.mk h2

theorem string_append_right_cancel (a b c : String) (h : a ++ c = b ++ c) : a = b := by
  have hd := congrArg String.data h
  simp only [String.data_append] at hd
  have h2 := List.append_cancel_right hd
  cases a
  cases b
  exact congrArg String.mk h2

theorem foldl_proofStep_inj (H : String → String) (hinj : Function.Injective H) :
    ∀ (l : List TrailEntry) (x y : String),
      List.foldl (proofStep H) x l = List.foldl (proofStep H) y l → x = y := by
  intro l
  induction l with
  | nil => intro x y h; exact h
  | cons e es ih =>
    intro x y h
    have hstep : proofStep H x e = proofStep H y e := ih _ _ h
    unfold proofStep at hstep
    by_cases hc : (e.2 == some Branch.left) = true
    · simp only [hc, if_true] at hstep
      exact string_append_left_cancel _ _ _ (hinj hstep)
    · have hc' : (e.2 == some Branch.left) = false := by
        revert hc
        cases e.2 == some Branch.left <;> simp
      simp only [hc', Bool.false_eq_true, if_false] at hstep
      exact string_append_right_cancel _ _ _ (hinj hstep)

/-- C6: tamper detection.  For every non-empty chunk sequence, chunk `c` in
it, and candidate leaf hash different from `hash(c)`, running
`merkle_proof` with the root hash, the different leaf hash, and the trail
derived for `hash(c)` returns `false`, provided the digest is injective
(collision-resistant). -/
theorem tamper_detection (H : String → String) (chunks : List String) (c : String)
    (h2 : String) (hinj : Function.Injective H) (hne : chunks ≠ []) (hc : c ∈ chunks)
    (hdiff : h2 ≠ H c) :
    ∃ t trail, build_tree H chunks = some t ∧
      get_audit_trail t (H c) [] = some trail ∧
      merkle_proof H ((getNode t.arena t.root_node).hash_value) h2 trail = false := by
  obtain ⟨t, core, hbt, hget, hfold⟩ := merkle_main H chunks c hne hc
  refine ⟨t, _, hbt, hget, ?_⟩
  rw [merkle_proof_eq_foldl, List.dropLast_concat, beq_eq_false_iff_ne]
  intro hcontra
  exact hdiff (foldl_proofStep_inj H hinj core h2 (H c) (hcontra.trans hfold.symm))

/-- C6 witness: tamper detection on `["a", "b", "c"]`, chunk `"c"`, and the
foreign leaf hash `"x"`, with the injective concrete digest. -/
theorem tamper_detection_witness :
    ∃ t trail, build_tree testHash ["a", "b", "c"] = some t ∧
      get_audit_trail t (testHash "c") [] = some trail ∧
      merkle_proof testHash ((getNode t.arena t.root_node).hash_value) "x" trail = false :=
  tamper_detection testHash ["a", "b", "c"] "c" "x" testHash_injective
    (by decide) (by decide) (by decide)

/-- C7: in one bottom-up pairing pass over a level with an odd number of
nodes greater than one, the last node is paired with itself exactly once —
the final pair, whose parent hashes to
`HashPrimitive(node.hash + node.hash)` and has the node as both children —
while every other parent is the pair `(level[i], level[i+1])` for even `i`
(distinct children, hash `HashPrimitive(level[i].hash + level[i+1].hash)`). -/
theorem odd_level_duplication (H : String → String) (a : Arena) (level : List Nat)
    (hodd : level.length % 2 = 1) (hgt : 1 < level.length)
    (hvalid : ∀ i ∈ level, i < a.length) (hnodup : level.Nodup) :
    (build_parents_loop H a level).2.length = (level.length + 1) / 2 ∧
    (getNode (build_parents_loop H a level).1
        (a.length + (level.length - 1) / 2)).hash_value =
      compute_hash H ((getNode a (level.getD (level.length - 1) 0)).hash_value ++
        (getNode a (level.getD (level.length - 1) 0)).hash_value) ∧
    (getNode (build_parents_loop H a level).1
        (a.length + (level.length - 1) / 2)).left_child =
      some (level.getD (level.length - 1) 0) ∧
    (getNode (build_parents_loop H a level).1
        (a.length + (level.length - 1) / 2)).right_child =
      some (level.getD (level.length - 1) 0) ∧
    (∀ k, 2 * k + 1 < level.length →
      (getNode (build_parents_loop H a level).1 (a.length + k)).left_child =
        some (level.getD (2 * k) 0) ∧
      (getNode (build_parents_loop H a level).1 (a.length + k)).right_child =
        some (level.getD (2 * k + 1) 0) ∧
      (getNode (build_parents_loop H a level).1 (a.length + k)).hash_value =
        compute_hash H ((getNode a (level.getD (2 * k) 0)).hash_value ++
          (getNode a (level.getD (2 * k + 1) 0)).hash_value) ∧
      (getNode (build_parents_loop H a level).1 (a.length + k)).left_child ≠
        (getNode (build_parents_loop H a level).1 (a.length + k)).right_child) := by
  obtain ⟨c1, c2, c3, c4, c5, c6⟩ :=
    build_parents_loop_spec H level.length a level (le_refl _) hvalid hnodup
  have hll := build_parents_loop_length H level.length level a (le_refl _)
  have hkl : 2 * ((level.length - 1) / 2) = level.length - 1 := by omega
  have hkltm : (level.length - 1) / 2 < (level.length + 1) / 2 := by omega
  have hlast := c6 ((level.length - 1) / 2) hkltm
  have hpr : pairRight level ((level.length - 1) / 2) = level.getD (level.length - 1) 0 := by
    unfold pairRight
    rw [if_neg (by omega), hkl]
  rw [hkl, hpr] at hlast
  refine ⟨hll, by rw [hlast], by rw [hlast], by rw [hlast], ?_⟩
  intro k hk
  have hkm : k < (level.length + 1) / 2 := by omega
  have hck := c6 k hkm
  have hprk : pairRight level k = level.getD (2 * k + 1) 0 := by
    unfold pairRight
    rw [if_pos hk]
  rw [hprk] at hck
  have hneq : level.getD (2 * k) 0 ≠ level.getD (2 * k + 1) 0 :=
    getD_nodup_ne level hnodup (2 * k) (2 * k + 1) (by omega) hk (by omega)
  refine ⟨by rw [hck], by rw [hck], by rw [hck], ?_⟩
  rw [hck]
  exact fun h => hneq (Option.some.inj h)

/-- C7 witness: the odd-level pairing property evaluated on the three-leaf
level of the `["a", "b", "c"]` example. -/
theorem odd_level_duplication_witness :
    ([0, 1, 2] : List Nat).length % 2 = 1 ∧ 1 < ([0, 1, 2] : List Nat).length ∧
    (∀ i ∈ ([0, 1, 2] : List Nat), i < exampleLeafArena.length) ∧
    ([0, 1, 2] : List Nat).Nodup ∧
    ((build_parents_loop testHash exampleLeafArena [0, 1, 2]).2.length =
      (([0, 1, 2] : List Nat).length + 1) / 2 ∧
    (getNode (build_parents_loop testHash exampleLeafArena [0, 1, 2]).1
        (exampleLeafArena.length + (([0, 1, 2] : List Nat).length - 1) / 2)).hash_value =
      compute_hash testHash
        ((getNode exampleLeafArena
            (([0, 1, 2] : List Nat).getD (([0, 1, 2] : List Nat).length - 1) 0)).hash_value ++
          (getNode exampleLeafArena
            (([0, 1, 2] : List Nat).getD (([0, 1, 2] : List Nat).length - 1) 0)).hash_value) ∧
    (getNode (build_parents_loop testHash exampleLeafArena [0, 1, 2]).1
        (exampleLeafArena.length + (([0, 1, 2] : List Nat).length - 1) / 2)).left_child =
      some (([0, 1, 2] : List Nat).getD (([0, 1, 2] : List Nat).length - 1) 0) ∧
    (getNode (build_parents_loop testHash exampleLeafArena [0, 1, 2]).1
        (exampleLeafArena.length + (([0, 1, 2] : List Nat).length - 1) / 2)).right_child =
      some (([0, 1, 2] : List Nat).getD (([0, 1, 2] : List Nat).length - 1) 0) ∧
    (∀ k, 2 * k + 1 < ([0, 1, 2] : List Nat).length →
      (getNode (build_parents_loop testHash exampleLeafArena [0, 1, 2]).1
          (exampleLeafArena.length + k)).left_child =
        some (([0, 1, 2] : List Nat).getD (2 * k) 0) ∧
      (getNode (build_parents_loop testHash exampleLeafArena [0, 1, 2]).1
          (exampleLeafArena.length + k)).right_child =
        some (([0, 1, 2] : List Nat).getD (2 * k + 1) 0) ∧
      (getNode (build_parents_loop testHash exampleLeafArena [0, 1, 2]).1
          (exampleLeafArena.length + k)).hash_value =
        compute_hash testHash
          ((getNode exampleLeafArena (([0, 1, 2] : List Nat).getD (2 * k) 0)).hash_value ++
            (getNode exampleLeafArena
              (([0, 1, 2] : List Nat).getD (2 * k + 1) 0)).hash_value) ∧
      (getNode (build_parents_loop testHash exampleLeafArena [0, 1, 2]).1
          (exampleLeafArena.length + k)).left_child ≠
        (getNode (build_parents_loop testHash exampleLeafArena [0, 1, 2]).1
          (exampleLeafArena.length + k)).right_child)) :=
  ⟨by decide, by decide, by decide, by decide,
    odd_level_duplication testHash exampleLeafArena [0, 1, 2]
      (by decide) (by decide) (by decide) (by decide)⟩

/-- C10: on an odd level, the parent of the lone trailing node stores the
very same node reference as both `left_child` and `right_child` (no copy),
the node's single `parent` back-reference points to that parent, the
audit-trail step recorded for the node is `(own hash, RIGHT)` (the identity
test `parent.left_child == node` succeeds, so the sibling read is the right
child — the node itself), and replaying that step in `merkle_proof`
reproduces the parent hash, since sibling and node hashes coincide. -/
theorem odd_level_self_pairing (H : String → String) (a : Arena) (level : List Nat)
    (hodd : level.length % 2 = 1) (hgt : 1 < level.length)
    (hvalid : ∀ i ∈ level, i < a.length) (hnodup : level.Nodup) :
    (getNode (build_parents_loop H a level).1
        (a.length + (level.length - 1) / 2)).left_child =
      (getNode (build_parents_loop H a level).1
        (a.length + (level.length - 1) / 2)).right_child ∧
    (getNode (build_parents_loop H a level).1
        (a.length + (level.length - 1) / 2)).left_child =
      some (level.getD (level.length - 1) 0) ∧
    (getNode (build_parents_loop H a level).1
        (level.getD (level.length - 1) 0)).parent =
      some (a.length + (level.length - 1) / 2) ∧
    generate_audit_trail (build_parents_loop H a level).1
        (a.length + (level.length - 1) / 2) 2 (level.getD (level.length - 1) 0) [] =
      some [((getNode a (level.getD (level.length - 1) 0)).hash_value, some Branch.right),
        ((getNode (build_parents_loop H a level).1
          (a.length + (level.length - 1) / 2)).hash_value, none)] ∧
    merkle_proof H
      ((getNode (build_parents_loop H a level).1
        (a.length + (level.length - 1) / 2)).hash_value)
      ((getNode a (level.getD (level.length - 1) 0)).hash_value)
      [((getNode a (level.getD (level.length - 1) 0)).hash_value, some Branch.right),
       ((getNode (build_parents_loop H a level).1
         (a.length + (level.length - 1) / 2)).hash_value, none)] = true := by
  obtain ⟨c1, c2, c3, c4, c5, c6⟩ :=
    build_parents_loop_spec H level.length a level (le_refl _) hvalid hnodup
  have hkl : 2 * ((level.length - 1) / 2) = level.length - 1 := by omega
  have hkltm : (level.length - 1) / 2 < (level.length + 1) / 2 := by omega
  have hlast := c6 ((level.length - 1) / 2) hkltm
  have hpr : pairRight level ((level.length - 1) / 2) = level.getD (level.length - 1) 0 := by
    unfold pairRight
    rw [if_neg (by omega), hkl]
  rw [hkl, hpr] at hlast
  have hlastmem : level.getD (level.length - 1) 0 ∈ level :=
    getD_mem_of_lt level (level.length - 1) (by omega)
  have hlasta : level.getD (level.length - 1) 0 < a.length := hvalid _ hlastmem
  have hparent : (getNode (build_parents_loop H a level).1
      (level.getD (level.length - 1) 0)).parent =
      some (a.length + (level.length - 1) / 2) := by
    exact c5 (level.length - 1) (by omega)
  have hhashpres : (getNode (build_parents_loop H a level).1
      (level.getD (level.length - 1) 0)).hash_value =
      (getNode a (level.getD (level.length - 1) 0)).hash_value :=
    (c4 _ hlasta).1
  have hne : ((a.length + (level.length - 1) / 2) == level.getD (level.length - 1) 0) = false :=
    beq_eq_false_iff_ne.mpr (by omega)
  have hbeqL : ((getNode (build_parents_loop H a level).1
      (a.length + (level.length - 1) / 2)).left_child ==
      some (level.getD (level.length - 1) 0)) = true := by
    rw [hlast]
    exact beq_self_eq_true _
  have hright : (getNode (build_parents_loop H a level).1
      (a.length + (level.length - 1) / 2)).right_child =
      some (level.getD (level.length - 1) 0) := by
    rw [hlast]
  refine ⟨by rw [hlast], by rw [hlast], hparent, ?_, ?_⟩
  · rw [generate_audit_trail_step_right (build_parents_loop H a level).1
      (a.length + (level.length - 1) / 2) 1 (level.getD (level.length - 1) 0)
      (a.length + (level.length - 1) / 2) (level.getD (level.length - 1) 0) []
      hne hparent hbeqL hright]
    rw [generate_audit_trail_root _ _ 0 _ _ (beq_self_eq_true _)]
    rw [hhashpres]
    rfl
  · rw [merkle_proof_eq_foldl]
    show ((List.foldl (proofStep H) _ [((getNode a (level.getD (level.length - 1) 0)).hash_value,
      some Branch.right)]) == _) = true
    rw [List.foldl_cons, proofStep_right, List.foldl_nil]
    rw [hlast]
    exact beq_self_eq_true _

/-- C10 witness: the self-pairing facts evaluated on the three-leaf level of
the `["a", "b", "c"]` example. -/
theorem odd_level_self_pairing_witness :
    ([0, 1, 2] : List Nat).length % 2 = 1 ∧ 1 < ([0, 1, 2] : List Nat).length ∧
    (∀ i ∈ ([0, 1, 2] : List Nat), i < exampleLeafArena.length) ∧
    ([0, 1, 2] : List Nat).Nodup ∧
    ((getNode (build_parents_loop testHash exampleLeafArena [0, 1, 2]).1
        (exampleLeafArena.length + (([0, 1, 2] : List Nat).length - 1) / 2)).left_child =
      (getNode (build_parents_loop testHash exampleLeafArena [0, 1, 2]).1
        (exampleLeafArena.length + (([0, 1, 2] : List Nat).length - 1) / 2)).right_child ∧
    (getNode (build_parents_loop testHash exampleLeafArena [0, 1, 2]).1
        (exampleLeafArena.length + (([0, 1, 2] : List Nat).length - 1) / 2)).left_child =
      some (([0, 1, 2] : List Nat).getD (([0, 1, 2] : List Nat).length - 1) 0) ∧
    (getNode (build_parents_loop testHash exampleLeafArena [0, 1, 2]).1
        (([0, 1, 2] : List Nat).getD (([0, 1, 2] : List Nat).length - 1) 0)).parent =
      some (exampleLeafArena.length + (([0, 1, 2] : List Nat).length - 1) / 2) ∧
    generate_audit_trail (build_parents_loop testHash exampleLeafArena [0, 1, 2]).1
        (exampleLeafArena.length + (([0, 1, 2] : List Nat).length - 1) / 2) 2
        (([0, 1, 2] : List Nat).getD (([0, 1, 2] : List Nat).length - 1) 0) [] =
      some [((getNode exampleLeafArena
          (([0, 1, 2] : List Nat).getD (([0, 1, 2] : List Nat).length - 1) 0)).hash_value,
          some Branch.right),
        ((getNode (build_parents_loop testHash exampleLeafArena [0, 1, 2]).1
          (exampleLeafArena.length +
            (([0, 1, 2] : List Nat).length - 1) / 2)).hash_value, none)] ∧
    merkle_proof testHash
      ((getNode (build_parents_loop testHash exampleLeafArena [0, 1, 2]).1
        (exampleLeafArena.length + (([0, 1, 2] : List Nat).length - 1) / 2)).hash_value)
      ((getNode exampleLeafArena
        (([0, 1, 2] : List Nat).getD (([0, 1, 2] : List Nat).length - 1) 0)).hash_value)
      [((getNode exampleLeafArena
          (([0, 1, 2] : List Nat).getD (([0, 1, 2] : List Nat).length - 1) 0)).hash_value,
          some Branch.right),
       ((getNode (build_parents_loop testHash exampleLeafArena [0, 1, 2]).1
         (exampleLeafArena.length +
           (([0, 1, 2] : List Nat).length - 1) / 2)).hash_value, none)] = true) :=
  ⟨by decide, by decide, by decide, by decide,
    odd_level_self_pairing testHash exampleLeafArena [0, 1, 2]
      (by decide) (by decide) (by decide) (by decide)⟩
